import Mathlib

/-!
Verification of the `responses_agent_binary_content_upload.py` sample:
a shallow embedding of the script's data model (file attachments, chat
history, streamed conversation turns, temporary-file cleanup) together
with theorems settling the specification's claims about it.

The filesystem is modelled as a partial map from paths to byte lists;
the remote agent service is an opaque parameter producing, for each
submitted prompt and thread handle, the list of streamed response
fragments (and possibly an error raised after the delivered fragments).
-/

namespace ResponsesSample

/-- A byte is modelled as a natural number (meaningful values are < 256). -/
abbrev Bytes := List Nat

/-- The filesystem: a partial map from paths to file contents. -/
abbrev FS := String → Option Bytes

/-- Write (or overwrite) a file at path `p`. -/
def setFile (fs : FS) (p : String) (v : Option Bytes) : FS :=
  fun q => if q = p then v else fs q

/-- Remove the file at path `p` from the filesystem. -/
def removeFile (fs : FS) (p : String) : FS :=
  fun q => if q = p then none else fs q

/-- `os.path.exists`: whether a file is present at path `p`. -/
def existsFile (fs : FS) (p : String) : Bool :=
  (fs p).isSome

/-- `os.unlink`: deletes the file, raising `FileNotFoundError` when absent. -/
def unlink (fs : FS) (p : String) : Except String FS :=
  if existsFile fs p then Except.ok (removeFile fs p)
  else Except.error ("FileNotFoundError: " ++ p)

/-- The guarded cleanup step of `main` (source lines 142-143):
`if os.path.exists(text_file_path): os.unlink(text_file_path)`. -/
def cleanupTemp (fs : FS) (p : String) : Except String FS :=
  if existsFile fs p then unlink fs p else Except.ok fs

/-- UTF-8 encoding of a single Unicode code point. -/
def utf8Char (c : Nat) : List Nat :=
  if c < 128 then [c]
  else if c < 2048 then [192 + c / 64, 128 + c % 64]
  else if c < 65536 then [224 + c / 4096, 128 + c / 64 % 64, 128 + c % 64]
  else [240 + c / 262144, 128 + c / 4096 % 64, 128 + c / 64 % 64, 128 + c % 64]

/-- UTF-8 encoding of a string (the bytes Python writes in mode "w"). -/
def utf8Bytes (s : String) : Bytes :=
  (s.data.map (fun ch => utf8Char ch.toNat)).flatten

/-- Base64: encode a byte list into the list of 6-bit groups. -/
def b64encode : Bytes → List Nat
  | [] => []
  | [a] => [a / 4, a % 4 * 16]
  | [a, b] => [a / 4, a % 4 * 16 + b / 16, b % 16 * 4]
  | a :: b :: c :: rest =>
      a / 4 :: (a % 4 * 16 + b / 16) :: (b % 16 * 4 + c / 64) :: c % 64 :: b64encode rest

/-- Base64: decode a list of 6-bit groups back into bytes. -/
def b64decode : List Nat → Bytes
  | [] => []
  | [_] => []
  | [x, y] => [x * 4 + y / 16]
  | [x, y, z] => [x * 4 + y / 16, y % 16 * 16 + z / 4]
  | x :: y :: z :: w :: rest =>
      (x * 4 + y / 16) :: (y % 16 * 16 + z / 4) :: (z % 4 * 64 + w) :: b64decode rest

theorem b64_roundtrip : ∀ l : Bytes, (∀ x ∈ l, x < 256) → b64decode (b64encode l) = l
  | [], _ => rfl
  | [a], h => by
      have ha : a < 256 := h a (by simp)
      simp only [b64encode, b64decode, List.cons.injEq, and_true]
      omega
  | [a, b], h => by
      have ha : a < 256 := h a (by simp)
      have hb : b < 256 := h b (by simp)
      simp only [b64encode, b64decode, List.cons.injEq, and_true]
      exact ⟨by omega, by omega⟩
  | a :: b :: c :: rest, h => by
      have ha : a < 256 := h a (by simp)
      have hb : b < 256 := h b (by simp)
      have hc : c < 256 := h c (by simp)
      have ih := b64_roundtrip rest (fun x hx => h x (by simp [hx]))
      simp only [b64encode, b64decode, List.cons.injEq]
      refine ⟨by omega, by omega, by omega, ih⟩

/-- The fixed sample questions (`USER_INPUTS`, source lines 25-30). -/
def USER_INPUTS : List String :=
  ["What type of files did I upload?",
   "Can you tell me about the content in the PDF file?",
   "What does the text file contain?",
   "Summarize all the uploaded documents."]

/-- `create_sample_text_content` (source lines 33-60): returns the fixed
policy-document string. The Python apostrophe is written as \x27. -/
def create_sample_text_content : String :=
  "Company Policy Document - Remote Work Guidelines\n\nThis document outlines our company\x27s remote work policies and procedures.\n\nRemote Work Eligibility:\n- Full-time employees with at least 6 months tenure\n- Managers approval required\n- Home office setup must meet security requirements\n\nWork Schedule:\n- Core hours: 10 AM - 3 PM local time\n- Flexible start/end times outside core hours\n- Maximum 3 remote days per week for hybrid roles\n\nCommunication Requirements:\n- Daily check-ins with team lead\n- Weekly video conference participation\n- Response time: within 4 hours during business hours\n\nEquipment and Security:\n- Company-provided laptop and VPN access\n- Secure Wi-Fi connection required\n- No public Wi-Fi for work activities\n\nFor questions about remote work policies, contact HR at hr@company.com\n"

/-- Modelled from the spec: the SDK type `semantic_kernel.contents.binary_content.BinaryContent`
is not part of this repository fragment. Per the spec it is an immutable in-memory
byte buffer tagged with a media (MIME) type and an optional encoding tag; when the
encoding tag is "base64" the stored payload is the base64 encoding of the input bytes. -/
structure BinaryContent where
  payload : Bytes
  mime_type : String
  data_format : Option String
  deriving DecidableEq, Repr

/-- Modelled from the spec: the `BinaryContent(data=..., mime_type=..., data_format=...)`
constructor. With `data_format="base64"` the payload is stored base64-encoded. -/
def BinaryContent.ofData (data : Bytes) (mime_type : String) (data_format : Option String) :
    BinaryContent :=
  if data_format = some "base64" then ⟨b64encode data, mime_type, data_format⟩
  else ⟨data, mime_type, data_format⟩

/-- Modelled from the spec: the decoded content of an attachment (un-base64 when the
encoding tag says so). -/
def BinaryContent.decodedData (bc : BinaryContent) : Bytes :=
  if bc.data_format = some "base64" then b64decode bc.payload else bc.payload

/-- Modelled from the spec: `BinaryContent.from_file` reads the entire file into
memory, associates the supplied media type, and surfaces a file-not-found error
when the path is invalid; no retry. -/
def BinaryContent.from_file (fs : FS) (file_path : String) (mime_type : String) :
    Except String BinaryContent :=
  match fs file_path with
  | none => Except.error ("FileNotFoundError: " ++ file_path)
  | some b => Except.ok ⟨b, mime_type, none⟩

/-- A plain text content part (`TextContent`). -/
structure TextContent where
  text : String
  deriving DecidableEq, Repr

/-- One content part of a chat message: plain text or a binary attachment. -/
inductive ChatItem where
  | text (t : TextContent)
  | binary (b : BinaryContent)
  deriving DecidableEq, Repr

/-- A chat message: a role and an ordered list of content parts. -/
structure ChatMessage where
  role : String
  items : List ChatItem
  deriving DecidableEq, Repr

/-- A chat history is an ordered, append-only sequence of messages. -/
abbrev ChatHistory := List ChatMessage

/-- `ChatHistory.add_user_message`: append a user message holding the given parts. -/
def add_user_message (h : ChatHistory) (items : List ChatItem) : ChatHistory :=
  h ++ [ChatMessage.mk "user" items]

/-- The chat history built in `main` (source lines 114-122): one user message with
one text part and the two file-derived attachments. -/
def uploadHistory (pdf_bc text_bc : BinaryContent) : ChatHistory :=
  add_user_message []
    [ChatItem.text ⟨"I\x27m uploading a PDF document and a text file for you to analyze."⟩,
     ChatItem.binary pdf_bc,
     ChatItem.binary text_bc]

/-- One streamed response fragment: its text content, the responding agent name,
and the (opaque, here numbered) conversation thread handle it carries. -/
structure Fragment where
  content : String
  name : String
  thread : Nat
  deriving DecidableEq, Repr

/-- Observable events of a run: a request submitted to the remote service
(tagged with its turn number), a streamed fragment received (tagged with the
turn it belongs to), and a console print. -/
inductive Event where
  | request (turn : Nat) (input : String) (thread : Option Nat)
  | receive (turn : Nat) (frag : Fragment)
  | print (s : String)
  deriving DecidableEq, Repr

/-- The mocked remote service: for a submitted prompt and thread handle it yields
the streamed fragments of that turn and, optionally, an error raised after the
delivered fragments (`none` = the turn completes normally). -/
abbrev Svc := String → Option Nat → List Fragment × Option String

/-- Modelled from the spec: `agent.invoke_stream(messages=user_input, ...)` submits
the plain prompt string, which the service receives as a user message with a
single text part. -/
def submittedMessageParts (user_input : String) : List ChatItem :=
  [ChatItem.text ⟨user_input⟩]

/-- One iteration run of the `async for` over `agent.invoke_stream` (source
lines 127-137): each arriving fragment is received, the agent-name header is
printed on the first chunk, and the fragment content is printed immediately. -/
def streamEvents (turn : Nat) : List Fragment → Bool → List Event
  | [], _ => []
  | f :: rest, first =>
      Event.receive turn f ::
        ((if first then [Event.print ("# " ++ f.name ++ ": ")] else []) ++
          (Event.print f.content :: streamEvents turn rest false))

/-- The thread handle after a turn: `thread = response.thread` runs once per
fragment, so the final value is the last fragment's handle (unchanged when the
stream was empty). -/
def lastThread (th : Option Nat) (frags : List Fragment) : Option Nat :=
  match frags.getLast? with
  | none => th
  | some f => some f.thread

/-- The conversation loop of `main` (source lines 125-138): for each user input,
print the user line, submit the prompt with the current thread handle, consume
the streamed response (updating the thread per fragment), print the trailing
newline, and continue; a service error aborts the loop after the fragments
already delivered. -/
def convLoop (svc : Svc) : List String → Option Nat → Nat → List Event × Except String Unit
  | [], _, _ => ([], Except.ok ())
  | input :: rest, th, turn =>
      match svc input th with
      | (frags, some e) =>
          (Event.print ("\n# User: \x27" ++ input ++ "\x27") ::
            Event.request turn input th :: streamEvents turn frags true,
           Except.error e)
      | (frags, none) =>
          let r := convLoop svc rest (lastThread th frags) (turn + 1)
          (Event.print ("\n# User: \x27" ++ input ++ "\x27") ::
            Event.request turn input th ::
              (streamEvents turn frags true ++ (Event.print "" :: r.1)),
           r.2)

/-- The body of the `try` block in `main` (source lines 81-138): build the two
file-derived attachments, construct the alternative attachment from raw bytes,
build the chat history, and run the conversation loop. Any failure aborts the
body with that error. The filesystem is only read, never written, here. -/
def tryBody (fs : FS) (svc : Svc) (pdf_file_path text_file_path : String) :
    List Event × Except String Unit :=
  let p0 := Event.print "Creating BinaryContent from files..."
  match BinaryContent.from_file fs pdf_file_path "application/pdf" with
  | Except.error e => ([p0], Except.error e)
  | Except.ok pdf_bc =>
      let p1 := Event.print ("Created PDF BinaryContent: " ++ pdf_bc.mime_type ++ ", can_read: True")
      match BinaryContent.from_file fs text_file_path "text/plain" with
      | Except.error e => ([p0, p1], Except.error e)
      | Except.ok text_bc =>
          let p2 := Event.print
            ("Created text BinaryContent: " ++ text_bc.mime_type ++ ", can_read: True")
          let alternative_text_content :=
            BinaryContent.ofData (utf8Bytes create_sample_text_content) "text/plain" (some "base64")
          let p3 := Event.print
            ("Alternative text BinaryContent: " ++ alternative_text_content.mime_type)
          let _chat_history := uploadHistory pdf_bc text_bc
          let r := convLoop svc USER_INPUTS none 0
          ([p0, p1, p2, p3] ++ r.1, r.2)

/-- The filesystem right after `tempfile.NamedTemporaryFile(mode="w", ...)` wrote
the sample text content (source lines 76-79): the temporary file holds the UTF-8
encoding of `create_sample_text_content()`. -/
def fsAfterTempCreate (fs0 : FS) (text_file_path : String) : FS :=
  setFile fs0 text_file_path (some (utf8Bytes create_sample_text_content))

/-- The prints after the `try`/`finally` (source lines 145-157), reached only on
normal completion. -/
def finalPrints : List Event :=
  [Event.print ("\n" ++ String.mk (List.replicate 60 '=')),
   Event.print "Sample completed!",
   Event.print "\nKey points about BinaryContent:",
   Event.print "1. Use BinaryContent.from_file() to create from existing files",
   Event.print "2. Use BinaryContent(data=...) to create from bytes/string data",
   Event.print "3. Specify appropriate mime_type for proper handling",
   Event.print "4. BinaryContent can be included in chat messages alongside text",
   Event.print "5. The OpenAI Responses API will process supported file types",
   Event.print "\nSupported file types include:",
   Event.print "- PDF documents (application/pdf)",
   Event.print "- Text files (text/plain)"]

/-- The observable outcome of one run of `main`: the final filesystem, the event
trace (requests, received fragments, prints), and the overall result. -/
structure RunOutcome where
  fs : FS
  events : List Event
  result : Except String Unit

/-- `main` (source lines 63-157), for runs in which the temporary text file was
successfully created: write the temp file, run the `try` body, always run the
guarded cleanup (`finally`), then either propagate the body's error or finish
with the closing prints. The pdf path and the tempfile-chosen path are
environment-determined parameters. -/
def main (fs0 : FS) (svc : Svc) (pdf_file_path text_file_path : String) : RunOutcome :=
  let fs1 := fsAfterTempCreate fs0 text_file_path
  let body := tryBody fs1 svc pdf_file_path text_file_path
  match cleanupTemp fs1 text_file_path with
  | Except.error e2 => ⟨fs1, body.1, Except.error e2⟩
  | Except.ok fs2 =>
      match body.2 with
      | Except.error e => ⟨fs2, body.1, Except.error e⟩
      | Except.ok _ => ⟨fs2, body.1 ++ finalPrints, Except.ok ()⟩

/-- The requests submitted to the remote service during a run, in trace order:
turn number, submitted prompt, and the thread handle passed along. -/
def requestsOf (evts : List Event) : List (Nat × String × Option Nat) :=
  evts.filterMap fun e =>
    match e with
    | Event.request i inp th => some (i, inp, th)
    | _ => none

/-- The fragments received during turn `k`, in arrival order. -/
def fragmentsOfTurn (k : Nat) (evts : List Event) : List Fragment :=
  evts.filterMap fun e =>
    match e with
    | Event.receive i f => if i = k then some f else none
    | _ => none

/-- Everything printed to the console during a run, in order. -/
def printsOf (evts : List Event) : List String :=
  evts.filterMap fun e =>
    match e with
    | Event.print s => some s
    | _ => none

/-- All fragments received during a run, in arrival order across all turns. -/
def receivedFragments (evts : List Event) : List Fragment :=
  evts.filterMap fun e =>
    match e with
    | Event.receive _ f => some f
    | _ => none

/-- The service-interaction tag of an event: `(turn, 0)` for the request,
`(turn, 1)` for a received fragment, nothing for a console print. -/
def eventTag (e : Event) : Option (Nat × Nat) :=
  match e with
  | Event.request i _ _ => some (i, 0)
  | Event.receive i _ => some (i, 1)
  | Event.print _ => none

/-- The service-interaction tags of a trace, in order. -/
def turnTags (evts : List Event) : List (Nat × Nat) :=
  evts.filterMap eventTag

/-- Lexicographic order on service-interaction tags: a whole turn (request then
its received fragments) precedes every later turn. -/
def tagLE (a b : Nat × Nat) : Prop :=
  a.1 < b.1 ∨ (a.1 = b.1 ∧ a.2 ≤ b.2)

/-- Checks that each received fragment's content is printed immediately on
arrival: right after the receive event, allowing only the one-off agent-name
header print in between, and before anything else happens. -/
def printedOnArrival : List Event → Bool
  | [] => true
  | Event.receive _ f :: Event.print c :: rest =>
      if c = f.content then printedOnArrival rest
      else
        match rest with
        | Event.print c2 :: rest2 => if c2 = f.content then printedOnArrival rest2 else false
        | _ => false
  | Event.receive _ _ :: _ => false
  | _ :: rest => printedOnArrival rest

/-- A trace segment consisting of console prints only. -/
def onlyPrints (l : List Event) : Prop :=
  ∀ e ∈ l, ∃ s, e = Event.print s

theorem existsFile_afterTempCreate (fs0 : FS) (t : String) :
    existsFile (fsAfterTempCreate fs0 t) t = true := by
  simp [existsFile, fsAfterTempCreate, setFile]

theorem main_fs_eq (fs0 : FS) (svc : Svc) (p t : String) :
    (main fs0 svc p t).fs = removeFile (fsAfterTempCreate fs0 t) t := by
  unfold main
  simp only [cleanupTemp, existsFile_afterTempCreate, if_true, unlink]
  cases (tryBody (fsAfterTempCreate fs0 t) svc p t).2 <;> rfl

/-- An always-empty filesystem, for concrete runs in which the PDF is missing. -/
def emptyFs : FS := fun _ => none

/-- A mocked service that streams nothing and never fails. -/
def quietSvc : Svc := fun _ _ => ([], none)

/-- A filesystem holding only the PDF resource file. -/
def pdfFs : FS := fun q => if q = "employees.pdf" then some [37, 80, 68, 70] else none

/-- C1: for every run of `main` in which the temporary text file was successfully
created, after the cleanup step the temporary file does not exist on the
filesystem — whether the `try` body completed normally or raised (the statement
is universal in the filesystem and the mocked service, so it covers attachment
construction failures and service errors alike). -/
theorem temp_file_removed_after_cleanup (fs0 : FS) (svc : Svc)
    (pdf_file_path text_file_path : String) :
    (main fs0 svc pdf_file_path text_file_path).fs text_file_path = none := by
  rw [main_fs_eq]
  simp [removeFile]

/-- C2: constructing a `BinaryContent` from raw bytes with `data_format="base64"`
yields an object whose declared media type equals the input media type and whose
decoded content round-trips to the original bytes. -/
theorem base64_binary_content_roundtrip (b : Bytes) (m : String) (h : ∀ x ∈ b, x < 256) :
    (BinaryContent.ofData b m (some "base64")).mime_type = m ∧
    (BinaryContent.ofData b m (some "base64")).decodedData = b := by
  constructor
  · simp [BinaryContent.ofData]
  · simp [BinaryContent.ofData, BinaryContent.decodedData, b64_roundtrip b h]

theorem base64_binary_content_roundtrip_witness :
    (∀ x ∈ ([72, 101, 108, 108, 111] : Bytes), x < 256) ∧
    (BinaryContent.ofData [72, 101, 108, 108, 111] "text/plain" (some "base64")).mime_type =
      "text/plain" ∧
    (BinaryContent.ofData [72, 101, 108, 108, 111] "text/plain" (some "base64")).decodedData =
      [72, 101, 108, 108, 111] :=
  ⟨by decide, base64_binary_content_roundtrip [72, 101, 108, 108, 111] "text/plain" (by decide)⟩

/-- C3: for every existing, non-empty file and every supplied media type,
`BinaryContent.from_file` yields an attachment holding exactly the file's
(non-empty) bytes, fully buffered, whose `mime_type` equals the supplied media
type exactly. -/
theorem from_file_yields_buffer_and_mime (fs : FS) (p m : String) (b : Bytes)
    (h1 : fs p = some b) (h2 : b ≠ []) :
    BinaryContent.from_file fs p m = Except.ok ⟨b, m, none⟩ ∧
    (BinaryContent.mk b m none).payload ≠ [] ∧
    (BinaryContent.mk b m none).mime_type = m := by
  refine ⟨?_, h2, rfl⟩
  simp [BinaryContent.from_file, h1]

theorem from_file_yields_buffer_and_mime_witness :
    (pdfFs "employees.pdf" = some [37, 80, 68, 70] ∧ ([37, 80, 68, 70] : Bytes) ≠ []) ∧
    BinaryContent.from_file pdfFs "employees.pdf" "application/pdf" =
      Except.ok ⟨[37, 80, 68, 70], "application/pdf", none⟩ :=
  ⟨⟨rfl, by decide⟩,
    (from_file_yields_buffer_and_mime pdfFs "employees.pdf" "application/pdf"
      [37, 80, 68, 70] rfl (by decide)).1⟩

/-- C6: whenever the `try` body fails — a missing file surfacing from
`BinaryContent.from_file` or a remote-service error during a turn — `main`
propagates that same error uncaught, the run is aborted (none of the closing
prints happen: the trace is exactly the body's trace), and the cleanup step has
already removed the temporary file. -/
theorem errors_propagate_after_cleanup (fs0 : FS) (svc : Svc) (p t e : String)
    (h : (tryBody (fsAfterTempCreate fs0 t) svc p t).2 = Except.error e) :
    (main fs0 svc p t).result = Except.error e ∧
    (main fs0 svc p t).fs t = none ∧
    (main fs0 svc p t).events = (tryBody (fsAfterTempCreate fs0 t) svc p t).1 := by
  refine ⟨?_, ?_, ?_⟩
  · unfold main
    simp only [cleanupTemp, existsFile_afterTempCreate, if_true, unlink, h]
  · rw [main_fs_eq]; simp [removeFile]
  · unfold main
    simp only [cleanupTemp, existsFile_afterTempCreate, if_true, unlink, h]

theorem errors_propagate_after_cleanup_witness :
    (tryBody (fsAfterTempCreate emptyFs "tmp.txt") quietSvc "employees.pdf" "tmp.txt").2 =
      Except.error "FileNotFoundError: employees.pdf" ∧
    (main emptyFs quietSvc "employees.pdf" "tmp.txt").result =
      Except.error "FileNotFoundError: employees.pdf" :=
  ⟨rfl, (errors_propagate_after_cleanup emptyFs quietSvc "employees.pdf" "tmp.txt"
    "FileNotFoundError: employees.pdf" rfl).1⟩

/-- C8: the cleanup step is idempotent and total: thanks to the existence guard
it never raises a file-not-found error in any filesystem state (unguarded
`unlink` would), and running it twice leaves the same state as running it once. -/
theorem cleanup_idempotent_and_total (fs : FS) (p : String) :
    cleanupTemp fs p = Except.ok (removeFile fs p) ∧
    cleanupTemp (removeFile fs p) p = Except.ok (removeFile fs p) := by
  constructor
  · by_cases h : (fs p).isSome
    · simp [cleanupTemp, existsFile, h, unlink]
    · have h0 : fs p = none := Option.not_isSome_iff_eq_none.mp h
      have hr : removeFile fs p = fs := by
        funext q
        by_cases hq : q = p <;> simp [removeFile, hq, h0]
      simp [cleanupTemp, existsFile, h0, hr]
  · simp [cleanupTemp, existsFile, removeFile]

/-- C10: `create_sample_text_content` is a fixed (hence deterministic) non-empty
string, the temporary file's content immediately after creation is exactly its
UTF-8 encoding, and the attachment read back from the temporary file buffers
exactly those bytes. -/
theorem sample_text_content_written_to_temp_file (fs0 : FS) (t : String) :
    decide (create_sample_text_content = "") = false ∧
    fsAfterTempCreate fs0 t t = some (utf8Bytes create_sample_text_content) ∧
    BinaryContent.from_file (fsAfterTempCreate fs0 t) t "text/plain" =
      Except.ok ⟨utf8Bytes create_sample_text_content, "text/plain", none⟩ := by
  refine ⟨by decide, ?_, ?_⟩
  · simp [fsAfterTempCreate, setFile]
  · simp [BinaryContent.from_file, fsAfterTempCreate, setFile]

theorem requestsOf_append (l1 l2 : List Event) :
    requestsOf (l1 ++ l2) = requestsOf l1 ++ requestsOf l2 := by
  simp [requestsOf, List.filterMap_append]

theorem fragmentsOfTurn_append (k : Nat) (l1 l2 : List Event) :
    fragmentsOfTurn k (l1 ++ l2) = fragmentsOfTurn k l1 ++ fragmentsOfTurn k l2 := by
  simp [fragmentsOfTurn, List.filterMap_append]

theorem printsOf_append (l1 l2 : List Event) :
    printsOf (l1 ++ l2) = printsOf l1 ++ printsOf l2 := by
  simp [printsOf, List.filterMap_append]

theorem receivedFragments_append (l1 l2 : List Event) :
    receivedFragments (l1 ++ l2) = receivedFragments l1 ++ receivedFragments l2 := by
  simp [receivedFragments, List.filterMap_append]

theorem turnTags_append (l1 l2 : List Event) :
    turnTags (l1 ++ l2) = turnTags l1 ++ turnTags l2 := by
  simp [turnTags, List.filterMap_append]

theorem requestsOf_print (s : String) (l : List Event) :
    requestsOf (Event.print s :: l) = requestsOf l := rfl

theorem requestsOf_receive (i : Nat) (f : Fragment) (l : List Event) :
    requestsOf (Event.receive i f :: l) = requestsOf l := rfl

theorem requestsOf_request (i : Nat) (inp : String) (th : Option Nat) (l : List Event) :
    requestsOf (Event.request i inp th :: l) = (i, inp, th) :: requestsOf l := rfl

theorem fragmentsOfTurn_print (k : Nat) (s : String) (l : List Event) :
    fragmentsOfTurn k (Event.print s :: l) = fragmentsOfTurn k l := rfl

theorem fragmentsOfTurn_request (k i : Nat) (inp : String) (th : Option Nat) (l : List Event) :
    fragmentsOfTurn k (Event.request i inp th :: l) = fragmentsOfTurn k l := rfl

theorem fragmentsOfTurn_receive (k i : Nat) (f : Fragment) (l : List Event) :
    fragmentsOfTurn k (Event.receive i f :: l) =
      if i = k then f :: fragmentsOfTurn k l else fragmentsOfTurn k l := by
  by_cases h : i = k <;> simp [fragmentsOfTurn, h]

theorem printsOf_print (s : String) (l : List Event) :
    printsOf (Event.print s :: l) = s :: printsOf l := rfl

theorem printsOf_receive (i : Nat) (f : Fragment) (l : List Event) :
    printsOf (Event.receive i f :: l) = printsOf l := rfl

theorem printsOf_request (i : Nat) (inp : String) (th : Option Nat) (l : List Event) :
    printsOf (Event.request i inp th :: l) = printsOf l := rfl

theorem receivedFragments_print (s : String) (l : List Event) :
    receivedFragments (Event.print s :: l) = receivedFragments l := rfl

theorem receivedFragments_receive (i : Nat) (f : Fragment) (l : List Event) :
    receivedFragments (Event.receive i f :: l) = f :: receivedFragments l := rfl

theorem receivedFragments_request (i : Nat) (inp : String) (th : Option Nat) (l : List Event) :
    receivedFragments (Event.request i inp th :: l) = receivedFragments l := rfl

theorem turnTags_print (s : String) (l : List Event) :
    turnTags (Event.print s :: l) = turnTags l := rfl

theorem turnTags_receive (i : Nat) (f : Fragment) (l : List Event) :
    turnTags (Event.receive i f :: l) = (i, 1) :: turnTags l := rfl

theorem turnTags_request (i : Nat) (inp : String) (th : Option Nat) (l : List Event) :
    turnTags (Event.request i inp th :: l) = (i, 0) :: turnTags l := rfl

theorem requestsOf_streamEvents (i : Nat) (frags : List Fragment) (first : Bool) :
    requestsOf (streamEvents i frags first) = [] := by
  induction frags generalizing first with
  | nil => rfl
  | cons f rest ih =>
      cases first <;>
        simpa [streamEvents, requestsOf_receive, requestsOf_print] using ih false

theorem fragmentsOfTurn_streamEvents (k i : Nat) (frags : List Fragment) (first : Bool) :
    fragmentsOfTurn k (streamEvents i frags first) = if i = k then frags else [] := by
  induction frags generalizing first with
  | nil => cases first <;> simp [streamEvents, fragmentsOfTurn]
  | cons f rest ih =>
      by_cases hik : i = k <;>
        cases first <;>
          simpa [streamEvents, fragmentsOfTurn_receive, fragmentsOfTurn_print, hik]
            using ih false

theorem receivedFragments_streamEvents (i : Nat) (frags : List Fragment) (first : Bool) :
    receivedFragments (streamEvents i frags first) = frags := by
  induction frags generalizing first with
  | nil => rfl
  | cons f rest ih =>
      cases first <;>
        simpa [streamEvents, receivedFragments_receive, receivedFragments_print] using ih false

theorem printsOf_streamEvents_false (i : Nat) (frags : List Fragment) :
    printsOf (streamEvents i frags false) = frags.map Fragment.content := by
  induction frags with
  | nil => rfl
  | cons f rest ih =>
      simpa [streamEvents, printsOf_receive, printsOf_print] using ih

theorem printsOf_streamEvents_true (i : Nat) (f : Fragment) (rest : List Fragment) :
    printsOf (streamEvents i (f :: rest) true) =
      ("# " ++ f.name ++ ": ") :: f.content :: rest.map Fragment.content := by
  simp [streamEvents, printsOf_receive, printsOf_print, printsOf_streamEvents_false]

theorem turnTags_streamEvents (i : Nat) (frags : List Fragment) (first : Bool) :
    turnTags (streamEvents i frags first) = List.replicate frags.length (i, 1) := by
  induction frags generalizing first with
  | nil => rfl
  | cons f rest ih =>
      cases first <;>
        simpa [streamEvents, turnTags_receive, turnTags_print, List.replicate_succ]
          using ih false

theorem convLoop_cons_err (svc : Svc) (input : String) (rest : List String) (th : Option Nat)
    (turn : Nat) (frags : List Fragment) (e : String) (h : svc input th = (frags, some e)) :
    convLoop svc (input :: rest) th turn =
      (Event.print ("\n# User: \x27" ++ input ++ "\x27") ::
        Event.request turn input th :: streamEvents turn frags true,
       Except.error e) := by
  simp [convLoop, h]

theorem convLoop_cons_ok (svc : Svc) (input : String) (rest : List String) (th : Option Nat)
    (turn : Nat) (frags : List Fragment) (h : svc input th = (frags, none)) :
    convLoop svc (input :: rest) th turn =
      (Event.print ("\n# User: \x27" ++ input ++ "\x27") ::
        Event.request turn input th ::
          (streamEvents turn frags true ++
            (Event.print "" :: (convLoop svc rest (lastThread th frags) (turn + 1)).1)),
       (convLoop svc rest (lastThread th frags) (turn + 1)).2) := by
  simp [convLoop, h]

theorem convLoop_obs_err (svc : Svc) (input : String) (rest : List String) (th : Option Nat)
    (i : Nat) (frags : List Fragment) (e : String) (h : svc input th = (frags, some e)) :
    requestsOf (convLoop svc (input :: rest) th i).1 = [(i, input, th)] ∧
    ∀ k, fragmentsOfTurn k (convLoop svc (input :: rest) th i).1 =
      if i = k then frags else [] := by
  rw [convLoop_cons_err svc input rest th i frags e h]
  constructor
  · simp [requestsOf_print, requestsOf_request, requestsOf_streamEvents]
  · intro k
    simp [fragmentsOfTurn_print, fragmentsOfTurn_request, fragmentsOfTurn_streamEvents]

theorem convLoop_obs_ok (svc : Svc) (input : String) (rest : List String) (th : Option Nat)
    (i : Nat) (frags : List Fragment) (h : svc input th = (frags, none)) :
    requestsOf (convLoop svc (input :: rest) th i).1 =
      (i, input, th) :: requestsOf (convLoop svc rest (lastThread th frags) (i + 1)).1 ∧
    ∀ k, fragmentsOfTurn k (convLoop svc (input :: rest) th i).1 =
      (if i = k then frags else []) ++
        fragmentsOfTurn k (convLoop svc rest (lastThread th frags) (i + 1)).1 := by
  rw [convLoop_cons_ok svc input rest th i frags h]
  constructor
  · simp [requestsOf_print, requestsOf_request, requestsOf_append, requestsOf_streamEvents]
  · intro k
    simp [fragmentsOfTurn_print, fragmentsOfTurn_request, fragmentsOfTurn_append,
      fragmentsOfTurn_streamEvents]

theorem convLoop_requests_ge (svc : Svc) :
    ∀ (inputs : List String) (th : Option Nat) (i j : Nat) (inp : String) (th' : Option Nat),
      (j, inp, th') ∈ requestsOf (convLoop svc inputs th i).1 → i ≤ j := by
  intro inputs
  induction inputs with
  | nil => intro th i j inp th' hmem; simp [convLoop, requestsOf] at hmem
  | cons input rest ih =>
      intro th i j inp th' hmem
      rcases hsv : svc input th with ⟨frags, err⟩
      cases err with
      | some e =>
          rw [(convLoop_obs_err svc input rest th i frags e hsv).1] at hmem
          simp at hmem
          omega
      | none =>
          rw [(convLoop_obs_ok svc input rest th i frags hsv).1] at hmem
          rcases List.mem_cons.mp hmem with heq | hmem2
          · have : j = i := congrArg Prod.fst heq
            omega
          · have := ih (lastThread th frags) (i + 1) j inp th' hmem2
            omega

theorem convLoop_request_start (svc : Svc) :
    ∀ (inputs : List String) (th : Option Nat) (i : Nat) (inp : String) (th' : Option Nat),
      (i, inp, th') ∈ requestsOf (convLoop svc inputs th i).1 → th' = th := by
  intro inputs
  induction inputs with
  | nil => intro th i inp th' hmem; simp [convLoop, requestsOf] at hmem
  | cons input rest _ =>
      intro th i inp th' hmem
      rcases hsv : svc input th with ⟨frags, err⟩
      cases err with
      | some e =>
          rw [(convLoop_obs_err svc input rest th i frags e hsv).1] at hmem
          simp at hmem
          exact hmem.2
      | none =>
          rw [(convLoop_obs_ok svc input rest th i frags hsv).1] at hmem
          rcases List.mem_cons.mp hmem with heq | hmem2
          · exact (Prod.ext_iff.mp (Prod.ext_iff.mp heq).2).2
          · have := convLoop_requests_ge svc rest (lastThread th frags) (i + 1) i inp th' hmem2
            omega

theorem convLoop_fragments_lt (svc : Svc) :
    ∀ (inputs : List String) (th : Option Nat) (i k : Nat), k < i →
      fragmentsOfTurn k (convLoop svc inputs th i).1 = [] := by
  intro inputs
  induction inputs with
  | nil => intro th i k _; simp [convLoop, fragmentsOfTurn]
  | cons input rest ih =>
      intro th i k hk
      rcases hsv : svc input th with ⟨frags, err⟩
      cases err with
      | some e =>
          rw [(convLoop_obs_err svc input rest th i frags e hsv).2 k]
          simp [Nat.ne_of_gt hk]
      | none =>
          rw [(convLoop_obs_ok svc input rest th i frags hsv).2 k]
          rw [ih (lastThread th frags) (i + 1) k (by omega)]
          simp [Nat.ne_of_gt hk]

theorem convLoop_thread_step (svc : Svc) :
    ∀ (inputs : List String) (th : Option Nat) (i k : Nat) (inp : String) (th' : Option Nat),
      i ≤ k → (k + 1, inp, th') ∈ requestsOf (convLoop svc inputs th i).1 →
      ∃ inp0 th0, (k, inp0, th0) ∈ requestsOf (convLoop svc inputs th i).1 ∧
        th' = lastThread th0 (fragmentsOfTurn k (convLoop svc inputs th i).1) := by
  intro inputs
  induction inputs with
  | nil => intro th i k inp th' _ hmem; simp [convLoop, requestsOf] at hmem
  | cons input rest ih =>
      intro th i k inp th' hik hmem
      rcases hsv : svc input th with ⟨frags, err⟩
      cases err with
      | some e =>
          rw [(convLoop_obs_err svc input rest th i frags e hsv).1] at hmem
          simp at hmem
          omega
      | none =>
          have hreq := (convLoop_obs_ok svc input rest th i frags hsv).1
          have hfrag := (convLoop_obs_ok svc input rest th i frags hsv).2
          rw [hreq] at hmem
          rcases List.mem_cons.mp hmem with heq | hmem2
          · have : k + 1 = i := congrArg Prod.fst heq
            omega
          · rcases Nat.lt_or_ge i (k + 1) with hlt | hge
            · rcases Nat.eq_or_lt_of_le hik with rfl | hik2
              · -- k = i: the previous request is this turn's own request
                refine ⟨input, th, ?_, ?_⟩
                · rw [hreq]; exact List.mem_cons_self _ _
                · have hth' :=
                    convLoop_request_start svc rest (lastThread th frags) (i + 1) inp th' hmem2
                  rw [hfrag i]
                  rw [convLoop_fragments_lt svc rest (lastThread th frags) (i + 1) i (by omega)]
                  simpa using hth'
              · -- i < k: recurse into the tail of the loop
                have hik3 : i + 1 ≤ k := hik2
                rcases ih (lastThread th frags) (i + 1) k inp th' hik3 hmem2 with
                  ⟨inp0, th0, hmem0, hth0⟩
                refine ⟨inp0, th0, ?_, ?_⟩
                · rw [hreq]; exact List.mem_cons_of_mem _ hmem0
                · rw [hfrag k]
                  have : i ≠ k := by omega
                  simpa [this] using hth0
            · omega

theorem requestsOf_onlyPrints (l : List Event) (h : onlyPrints l) : requestsOf l = [] := by
  induction l with
  | nil => rfl
  | cons e rest ih =>
      rcases h e (List.mem_cons_self _ _) with ⟨s, rfl⟩
      rw [requestsOf_print]
      exact ih fun e he => h e (List.mem_cons_of_mem _ he)

theorem fragmentsOfTurn_onlyPrints (k : Nat) (l : List Event) (h : onlyPrints l) :
    fragmentsOfTurn k l = [] := by
  induction l with
  | nil => rfl
  | cons e rest ih =>
      rcases h e (List.mem_cons_self _ _) with ⟨s, rfl⟩
      rw [fragmentsOfTurn_print]
      exact ih fun e he => h e (List.mem_cons_of_mem _ he)

theorem receivedFragments_onlyPrints (l : List Event) (h : onlyPrints l) :
    receivedFragments l = [] := by
  induction l with
  | nil => rfl
  | cons e rest ih =>
      rcases h e (List.mem_cons_self _ _) with ⟨s, rfl⟩
      rw [receivedFragments_print]
      exact ih fun e he => h e (List.mem_cons_of_mem _ he)

theorem turnTags_onlyPrints (l : List Event) (h : onlyPrints l) : turnTags l = [] := by
  induction l with
  | nil => rfl
  | cons e rest ih =>
      rcases h e (List.mem_cons_self _ _) with ⟨s, rfl⟩
      rw [turnTags_print]
      exact ih fun e he => h e (List.mem_cons_of_mem _ he)

theorem onlyPrints_finalPrints : onlyPrints finalPrints := by
  intro e he
  simp [finalPrints] at he
  rcases he with rfl | rfl | rfl | rfl | rfl | rfl | rfl | rfl | rfl | rfl | rfl <;> exact ⟨_, rfl⟩

theorem cleanupTemp_afterTempCreate (fs0 : FS) (t : String) :
    cleanupTemp (fsAfterTempCreate fs0 t) t =
      Except.ok (removeFile (fsAfterTempCreate fs0 t) t) := by
  simp [cleanupTemp, existsFile_afterTempCreate, unlink]

theorem tryBody_events_cases (fs : FS) (svc : Svc) (p t : String) :
    (onlyPrints (tryBody fs svc p t).1 ∧ ∃ e, (tryBody fs svc p t).2 = Except.error e) ∨
    ∃ pre, onlyPrints pre ∧
      (tryBody fs svc p t).1 = pre ++ (convLoop svc USER_INPUTS none 0).1 ∧
      (tryBody fs svc p t).2 = (convLoop svc USER_INPUTS none 0).2 := by
  unfold tryBody
  rcases hpdf : BinaryContent.from_file fs p "application/pdf" with e | pdf_bc
  · simp only [hpdf]
    left
    constructor
    · intro ev hev
      simp at hev
      exact ⟨_, hev⟩
    · exact ⟨e, rfl⟩
  · rcases htxt : BinaryContent.from_file fs t "text/plain" with e | text_bc
    · simp only [hpdf, htxt]
      left
      constructor
      · intro ev hev
        simp at hev
        rcases hev with rfl | rfl <;> exact ⟨_, rfl⟩
      · exact ⟨e, rfl⟩
    · simp only [hpdf, htxt]
      right
      exact ⟨[Event.print "Creating BinaryContent from files...",
        Event.print ("Created PDF BinaryContent: " ++ pdf_bc.mime_type ++ ", can_read: True"),
        Event.print ("Created text BinaryContent: " ++ text_bc.mime_type ++ ", can_read: True"),
        Event.print ("Alternative text BinaryContent: " ++
          (BinaryContent.ofData (utf8Bytes create_sample_text_content) "text/plain"
            (some "base64")).mime_type)],
        by intro ev hev; simp at hev; rcases hev with rfl | rfl | rfl | rfl <;> exact ⟨_, rfl⟩,
        rfl, by simp⟩

theorem main_events_cases (fs0 : FS) (svc : Svc) (p t : String) :
    onlyPrints (main fs0 svc p t).events ∨
    ∃ pre post, onlyPrints pre ∧ onlyPrints post ∧
      (main fs0 svc p t).events = pre ++ (convLoop svc USER_INPUTS none 0).1 ++ post := by
  have h := tryBody_events_cases (fsAfterTempCreate fs0 t) svc p t
  unfold main
  simp only [cleanupTemp_afterTempCreate]
  rcases h with ⟨hop, e, herr⟩ | ⟨pre, hpre, hev, hres⟩
  · simp only [herr]
    left
    simpa using hop
  · rcases hcv : (convLoop svc USER_INPUTS none 0).2 with e | u
    · simp only [hres, hcv]
      right
      exact ⟨pre, [], hpre, by simp [onlyPrints], by simpa using hev⟩
    · simp only [hres, hcv]
      right
      refine ⟨pre, finalPrints, hpre, onlyPrints_finalPrints, ?_⟩
      simp [hev]

/-- A mocked service answering every turn with one fragment whose thread handle
increments the previous one. -/
def demoSvc : Svc :=
  fun _ th => ([⟨"The files look great.", "FileAnalyzer", th.getD 0 + 1⟩], none)

/-- C5: in every run, the first turn is submitted with no thread handle, and
every later turn is submitted with the handle captured during the previous
turn's streamed response (the previous handle when that stream was empty). -/
theorem thread_handle_threading (fs0 : FS) (svc : Svc) (p t : String) :
    (∀ inp th, (0, inp, th) ∈ requestsOf (main fs0 svc p t).events → th = none) ∧
    (∀ k inp th, (k + 1, inp, th) ∈ requestsOf (main fs0 svc p t).events →
      ∃ inp0 th0, (k, inp0, th0) ∈ requestsOf (main fs0 svc p t).events ∧
        th = lastThread th0 (fragmentsOfTurn k (main fs0 svc p t).events)) := by
  rcases main_events_cases fs0 svc p t with hop | ⟨pre, post, hpre, hpost, hev⟩
  · constructor
    · intro inp th hmem
      rw [requestsOf_onlyPrints _ hop] at hmem
      simp at hmem
    · intro k inp th hmem
      rw [requestsOf_onlyPrints _ hop] at hmem
      simp at hmem
  · have hreq : requestsOf (main fs0 svc p t).events =
        requestsOf (convLoop svc USER_INPUTS none 0).1 := by
      rw [hev, requestsOf_append, requestsOf_append,
        requestsOf_onlyPrints _ hpre, requestsOf_onlyPrints _ hpost]
      simp
    have hfrag : ∀ k, fragmentsOfTurn k (main fs0 svc p t).events =
        fragmentsOfTurn k (convLoop svc USER_INPUTS none 0).1 := by
      intro k
      rw [hev, fragmentsOfTurn_append, fragmentsOfTurn_append,
        fragmentsOfTurn_onlyPrints _ _ hpre, fragmentsOfTurn_onlyPrints _ _ hpost]
      simp
    constructor
    · intro inp th hmem
      rw [hreq] at hmem
      exact convLoop_request_start svc USER_INPUTS none 0 inp th hmem
    · intro k inp th hmem
      rw [hreq] at hmem
      rcases convLoop_thread_step svc USER_INPUTS none 0 k inp th (Nat.zero_le k) hmem with
        ⟨inp0, th0, h1, h2⟩
      exact ⟨inp0, th0, by rw [hreq]; exact h1, by rw [hfrag k]; exact h2⟩

theorem thread_handle_threading_witness :
    ((1, "Can you tell me about the content in the PDF file?", some 1) ∈
      requestsOf (main pdfFs demoSvc "employees.pdf" "tmp.txt").events) ∧
    (∃ inp0 th0,
      (0, inp0, th0) ∈ requestsOf (main pdfFs demoSvc "employees.pdf" "tmp.txt").events ∧
      some 1 = lastThread th0
        (fragmentsOfTurn 0 (main pdfFs demoSvc "employees.pdf" "tmp.txt").events)) :=
  ⟨by decide, (thread_handle_threading pdfFs demoSvc "employees.pdf" "tmp.txt").2 0
    "Can you tell me about the content in the PDF file?" (some 1) (by decide)⟩

theorem pairwise_tagLE_replicate (n : Nat) (a : Nat × Nat) (h : tagLE a a) :
    List.Pairwise tagLE (List.replicate n a) := by
  induction n with
  | zero => simp
  | succ n ih =>
      rw [List.replicate_succ]
      exact List.Pairwise.cons (fun b hb => by rw [List.eq_of_mem_replicate hb]; exact h) ih

theorem convLoop_tags (svc : Svc) :
    ∀ (inputs : List String) (th : Option Nat) (i : Nat),
      List.Pairwise tagLE (turnTags (convLoop svc inputs th i).1) ∧
      ∀ a ∈ turnTags (convLoop svc inputs th i).1, i ≤ a.1 := by
  intro inputs
  induction inputs with
  | nil =>
      intro th i
      constructor
      · simp [convLoop, turnTags]
      · intro a ha
        simp [convLoop, turnTags] at ha
  | cons input rest ih =>
      intro th i
      rcases hsv : svc input th with ⟨frags, err⟩
      cases err with
      | some e =>
          rw [convLoop_cons_err svc input rest th i frags e hsv]
          have ht : turnTags (Event.print ("\n# User: \x27" ++ input ++ "\x27") ::
              Event.request i input th :: streamEvents i frags true) =
              (i, 0) :: List.replicate frags.length (i, 1) := by
            rw [turnTags_print, turnTags_request, turnTags_streamEvents]
          rw [ht]
          constructor
          · refine List.Pairwise.cons ?_ (pairwise_tagLE_replicate _ _ (Or.inr ⟨rfl, le_refl 1⟩))
            intro b hb
            rw [List.eq_of_mem_replicate hb]
            exact Or.inr ⟨rfl, by omega⟩
          · intro a ha
            rcases List.mem_cons.mp ha with rfl | ha2
            · exact le_refl i
            · rw [List.eq_of_mem_replicate ha2]
      | none =>
          rw [convLoop_cons_ok svc input rest th i frags hsv]
          have ht : turnTags (Event.print ("\n# User: \x27" ++ input ++ "\x27") ::
              Event.request i input th ::
                (streamEvents i frags true ++
                  (Event.print "" :: (convLoop svc rest (lastThread th frags) (i + 1)).1))) =
              (i, 0) :: (List.replicate frags.length (i, 1) ++
                turnTags (convLoop svc rest (lastThread th frags) (i + 1)).1) := by
            rw [turnTags_print, turnTags_request, turnTags_append, turnTags_streamEvents,
              turnTags_print]
          rw [ht]
          have hrest := ih (lastThread th frags) (i + 1)
          constructor
          · refine List.Pairwise.cons ?_ ?_
            · intro b hb
              rcases List.mem_append.mp hb with hb1 | hb2
              · rw [List.eq_of_mem_replicate hb1]
                exact Or.inr ⟨rfl, by omega⟩
              · exact Or.inl (by have := hrest.2 b hb2; omega)
            · rw [List.pairwise_append]
              refine ⟨pairwise_tagLE_replicate _ _ (Or.inr ⟨rfl, le_refl 1⟩), hrest.1, ?_⟩
              intro a ha b hb
              rw [List.eq_of_mem_replicate ha]
              exact Or.inl (by have := hrest.2 b hb; omega)
          · intro a ha
            rcases List.mem_cons.mp ha with rfl | ha2
            · exact le_refl i
            · rcases List.mem_append.mp ha2 with hb1 | hb2
              · rw [List.eq_of_mem_replicate hb1]
              · have := hrest.2 a hb2; omega

theorem convLoop_inputs_taken (svc : Svc) :
    ∀ (inputs : List String) (th : Option Nat) (i : Nat),
      ∃ n, (requestsOf (convLoop svc inputs th i).1).map (fun r => r.2.1) = inputs.take n := by
  intro inputs
  induction inputs with
  | nil => intro th i; exact ⟨0, by simp [convLoop, requestsOf]⟩
  | cons input rest ih =>
      intro th i
      rcases hsv : svc input th with ⟨frags, err⟩
      cases err with
      | some e =>
          rw [(convLoop_obs_err svc input rest th i frags e hsv).1]
          exact ⟨1, by simp⟩
      | none =>
          rcases ih (lastThread th frags) (i + 1) with ⟨n, hn⟩
          rw [(convLoop_obs_ok svc input rest th i frags hsv).1]
          exact ⟨n + 1, by simp [hn]⟩

/-- C7: conversation turns execute strictly one after another in `USER_INPUTS`
order: in the run's trace the service-interaction tags are lexicographically
sorted, so every fragment of a turn is received (and its request submitted)
before the next turn's request is submitted — no two requests are ever
outstanding simultaneously — and the submitted prompts are a prefix of
`USER_INPUTS` in order. -/
theorem turns_execute_sequentially (fs0 : FS) (svc : Svc) (p t : String) :
    List.Pairwise tagLE (turnTags (main fs0 svc p t).events) ∧
    ∃ n, (requestsOf (main fs0 svc p t).events).map (fun r => r.2.1) = USER_INPUTS.take n := by
  rcases main_events_cases fs0 svc p t with hop | ⟨pre, post, hpre, hpost, hev⟩
  · rw [turnTags_onlyPrints _ hop, requestsOf_onlyPrints _ hop]
    exact ⟨List.Pairwise.nil, 0, rfl⟩
  · have htags : turnTags (main fs0 svc p t).events =
        turnTags (convLoop svc USER_INPUTS none 0).1 := by
      rw [hev, turnTags_append, turnTags_append,
        turnTags_onlyPrints _ hpre, turnTags_onlyPrints _ hpost]
      simp
    have hreq : requestsOf (main fs0 svc p t).events =
        requestsOf (convLoop svc USER_INPUTS none 0).1 := by
      rw [hev, requestsOf_append, requestsOf_append,
        requestsOf_onlyPrints _ hpre, requestsOf_onlyPrints _ hpost]
      simp
    rw [htags, hreq]
    exact ⟨(convLoop_tags svc USER_INPUTS none 0).1, convLoop_inputs_taken svc USER_INPUTS none 0⟩

theorem content_sublist_stream (i : Nat) (frags : List Fragment) (first : Bool) :
    (frags.map Fragment.content).Sublist (printsOf (streamEvents i frags first)) := by
  cases first with
  | false =>
      rw [printsOf_streamEvents_false]
  | true =>
      cases frags with
      | nil => simp [streamEvents]
      | cons f fr =>
          rw [printsOf_streamEvents_true]
          have hm : (f :: fr).map Fragment.content = f.content :: fr.map Fragment.content := rfl
          rw [hm]
          exact List.Sublist.cons _ (List.Sublist.refl _)

theorem convLoop_content_sublist (svc : Svc) :
    ∀ (inputs : List String) (th : Option Nat) (i : Nat),
      ((receivedFragments (convLoop svc inputs th i).1).map Fragment.content).Sublist
        (printsOf (convLoop svc inputs th i).1) := by
  intro inputs
  induction inputs with
  | nil => intro th i; simp [convLoop, receivedFragments, printsOf]
  | cons input rest ih =>
      intro th i
      rcases hsv : svc input th with ⟨frags, err⟩
      cases err with
      | some e =>
          rw [convLoop_cons_err svc input rest th i frags e hsv]
          rw [receivedFragments_print, receivedFragments_request,
            printsOf_print, printsOf_request, receivedFragments_streamEvents]
          exact List.Sublist.cons _ (content_sublist_stream i frags true)
      | none =>
          rw [convLoop_cons_ok svc input rest th i frags hsv]
          rw [receivedFragments_print, receivedFragments_request,
            printsOf_print, printsOf_request, receivedFragments_append,
            printsOf_append, receivedFragments_streamEvents,
            receivedFragments_print, printsOf_print]
          rw [List.map_append]
          refine List.Sublist.cons _ ?_
          exact (content_sublist_stream i frags true).append
            (List.Sublist.cons _ (ih (lastThread th frags) (i + 1)))

theorem printedOnArrival_print (s : String) (l : List Event) :
    printedOnArrival (Event.print s :: l) = printedOnArrival l := rfl

theorem printedOnArrival_request (i : Nat) (inp : String) (th : Option Nat) (l : List Event) :
    printedOnArrival (Event.request i inp th :: l) = printedOnArrival l := rfl

theorem printedOnArrival_receive_print (i : Nat) (f : Fragment) (c : String) (l : List Event) :
    printedOnArrival (Event.receive i f :: Event.print c :: l) =
      if c = f.content then printedOnArrival l
      else
        match l with
        | Event.print c2 :: l2 => if c2 = f.content then printedOnArrival l2 else false
        | _ => false := by
  cases l with
  | nil => rfl
  | cons e l2 => cases e <;> rfl

theorem printedOnArrival_streamEvents (i : Nat) (frags : List Fragment) (first : Bool)
    (tail : List Event) :
    printedOnArrival (streamEvents i frags first ++ tail) = printedOnArrival tail := by
  induction frags generalizing first with
  | nil => simp [streamEvents]
  | cons f rest ih =>
      cases first with
      | false =>
          have hsh : streamEvents i (f :: rest) false ++ tail =
              Event.receive i f :: Event.print f.content ::
                (streamEvents i rest false ++ tail) := by
            simp [streamEvents]
          rw [hsh, printedOnArrival_receive_print]
          simp [ih false]
      | true =>
          have hsh : streamEvents i (f :: rest) true ++ tail =
              Event.receive i f :: Event.print ("# " ++ f.name ++ ": ") ::
                Event.print f.content :: (streamEvents i rest false ++ tail) := by
            simp [streamEvents]
          rw [hsh, printedOnArrival_receive_print]
          by_cases hc : ("# " ++ f.name ++ ": ") = f.content
          · rw [if_pos hc, printedOnArrival_print]
            exact ih false
          · rw [if_neg hc]
            show (if f.content = f.content then
                printedOnArrival (streamEvents i rest false ++ tail) else false) =
              printedOnArrival tail
            rw [if_pos rfl]
            exact ih false

theorem printedOnArrival_convLoop (svc : Svc) :
    ∀ (inputs : List String) (th : Option Nat) (i : Nat) (tail : List Event),
      printedOnArrival ((convLoop svc inputs th i).1 ++ tail) = printedOnArrival tail := by
  intro inputs
  induction inputs with
  | nil => intro th i tail; simp [convLoop]
  | cons input rest ih =>
      intro th i tail
      rcases hsv : svc input th with ⟨frags, err⟩
      cases err with
      | some e =>
          rw [convLoop_cons_err svc input rest th i frags e hsv]
          simp only [List.cons_append]
          rw [printedOnArrival_print, printedOnArrival_request, printedOnArrival_streamEvents]
      | none =>
          rw [convLoop_cons_ok svc input rest th i frags hsv]
          simp only [List.cons_append, List.append_assoc]
          rw [printedOnArrival_print, printedOnArrival_request, printedOnArrival_streamEvents]
          rw [printedOnArrival_print]
          exact ih (lastThread th frags) (i + 1) tail

theorem printedOnArrival_onlyPrints_append (pre l : List Event) (h : onlyPrints pre) :
    printedOnArrival (pre ++ l) = printedOnArrival l := by
  induction pre with
  | nil => rfl
  | cons e rest ih =>
      rcases h e (List.mem_cons_self _ _) with ⟨s, rfl⟩
      rw [List.cons_append, printedOnArrival_print]
      exact ih fun e he => h e (List.mem_cons_of_mem _ he)

theorem printedOnArrival_onlyPrints (l : List Event) (h : onlyPrints l) :
    printedOnArrival l = true := by
  have h0 := printedOnArrival_onlyPrints_append l [] h
  simpa using h0

/-- C4: the printed console output contains every streamed fragment of the run,
in arrival order, without reordering (the received fragments' contents form an
order-preserving sublist of the prints), and each fragment's content is printed
immediately upon receipt — before the next fragment is consumed, with at most
the one-off agent-name header in between. -/
theorem streamed_fragments_printed_in_order (fs0 : FS) (svc : Svc) (p t : String) :
    ((receivedFragments (main fs0 svc p t).events).map Fragment.content).Sublist
      (printsOf (main fs0 svc p t).events) ∧
    printedOnArrival (main fs0 svc p t).events = true := by
  rcases main_events_cases fs0 svc p t with hop | ⟨pre, post, hpre, hpost, hev⟩
  · constructor
    · rw [receivedFragments_onlyPrints _ hop]
      simp
    · exact printedOnArrival_onlyPrints _ hop
  · constructor
    · rw [hev, receivedFragments_append, receivedFragments_append,
        receivedFragments_onlyPrints _ hpre, receivedFragments_onlyPrints _ hpost,
        printsOf_append, printsOf_append]
      simp only [List.nil_append, List.append_nil]
      have h1 := convLoop_content_sublist svc USER_INPUTS none 0
      have h2 := h1.trans (List.sublist_append_left
        (printsOf (convLoop svc USER_INPUTS none 0).1) (printsOf post))
      have h3 := h2.trans (List.sublist_append_right (printsOf pre)
        (printsOf (convLoop svc USER_INPUTS none 0).1 ++ printsOf post))
      rw [List.append_assoc]
      exact h3
    · rw [hev, List.append_assoc, printedOnArrival_onlyPrints_append _ _ hpre,
        printedOnArrival_convLoop]
      exact printedOnArrival_onlyPrints _ hpost

/-- The number of plain-text parts of a message's item list. -/
def countText (items : List ChatItem) : Nat :=
  (items.filter fun it =>
    match it with
    | ChatItem.text _ => true
    | _ => false).length

/-- The binary attachments among a message's item list, in order. -/
def binaryItems (items : List ChatItem) : List BinaryContent :=
  items.filterMap fun it =>
    match it with
    | ChatItem.binary b => some b
    | _ => none

/-- The PDF attachment `main` builds from `pdfFs` via `BinaryContent.from_file`. -/
def demoPdfBc : BinaryContent := ⟨[37, 80, 68, 70], "application/pdf", none⟩

/-- The text attachment `main` builds from the temporary file. -/
def demoTextBc : BinaryContent := ⟨utf8Bytes create_sample_text_content, "text/plain", none⟩

/-- The alternative attachment built directly from raw bytes (source lines 95-98). -/
def demoAlt : BinaryContent :=
  BinaryContent.ofData (utf8Bytes create_sample_text_content) "text/plain" (some "base64")

/-- C9: in a concrete run, the chat history message does hold exactly one text
part and the two file-derived attachments and never the alternative attachment —
but the claim that this user message is submitted to the service fails: every
request of the run submits only the plain input string, whose message parts
contain zero binary attachments (the attachment-bearing chat history is built
and then never passed to the agent). -/
theorem attachments_never_submitted :
    BinaryContent.from_file (fsAfterTempCreate pdfFs "tmp.txt") "employees.pdf"
        "application/pdf" = Except.ok demoPdfBc ∧
    BinaryContent.from_file (fsAfterTempCreate pdfFs "tmp.txt") "tmp.txt" "text/plain" =
      Except.ok demoTextBc ∧
    (uploadHistory demoPdfBc demoTextBc).map (fun m => countText m.items) = [1] ∧
    (uploadHistory demoPdfBc demoTextBc).map (fun m => (binaryItems m.items).length) = [2] ∧
    (uploadHistory demoPdfBc demoTextBc).map
      (fun m => m.items.countP (fun it => it == ChatItem.binary demoAlt)) = [0] ∧
    (requestsOf (main pdfFs demoSvc "employees.pdf" "tmp.txt").events).length = 4 ∧
    (requestsOf (main pdfFs demoSvc "employees.pdf" "tmp.txt").events).map
      (fun r => (binaryItems (submittedMessageParts r.2.1)).length) = [0, 0, 0, 0] := by
  refine ⟨rfl, rfl, rfl, rfl, ?_, by decide, by decide⟩
  decide

end ResponsesSample
